import Mathlib

/-!
Verification development for the eqsignal-poc repository: a shallow embedding
of the feature/label construction (features.py), the walk-forward
cross-validation routine (model.py), the metrics aggregation (evaluate.py)
and the persisted-metrics round trip (cli.py / report.py), together with
theorems settling the frozen claims about them.

Prices and all derived numeric columns are embedded as exact rationals; a
missing value (pandas/numpy NaN) is `Option.none`.  Fallible library calls
(sklearn raising `ValueError`) are embedded as `Except`.
-/

namespace EqSignal

/-! ### Walk-forward evaluator (model.py, `time_series_cv_predictions`)

sklearn's `TimeSeriesSplit(n_splits=k).split(X)` on `n` samples:
`test_size = n // (k+1)`; it raises when `k < 2` (constructor check),
when `k + 1 > n`, or when `n - test_size * k <= 0`; otherwise fold
`f` (0-based, `f < k`) has training indices `[0, first + f*test_size)`
and test indices `[first + f*test_size, first + (f+1)*test_size)` where
`first = n - k * test_size`. -/

/-- Errors raised by the split construction (sklearn `ValueError`s). -/
inductive SplitError
  | tooFewSplits
  | foldsExceedSamples
  | tooManySplitsForSamples
  deriving DecidableEq, Repr

/-- sklearn: `test_size = n_samples // n_folds` with `n_folds = n_splits + 1`. -/
def testSize (n k : Nat) : Nat := n / (k + 1)

/-- Size of the leading block that is never a test set:
`n_samples - n_splits * test_size`. -/
def blockOne (n k : Nat) : Nat := n - k * testSize n k

/-- Training indices of 0-based fold `f`: `indices[:test_start]`. -/
def foldTrain (n k f : Nat) : List Nat := List.range (blockOne n k + f * testSize n k)

/-- Test indices of 0-based fold `f`: `indices[test_start : test_start + test_size]`. -/
def foldTest (n k f : Nat) : List Nat :=
  (List.range (testSize n k)).map (fun j => blockOne n k + f * testSize n k + j)

/-- The list of (train, test) index pairs yielded by `TimeSeriesSplit.split`. -/
def foldsOf (n k : Nat) : List (List Nat × List Nat) :=
  (List.range k).map (fun f => (foldTrain n k f, foldTest n k f))

/-- `TimeSeriesSplit(n_splits=k)` applied to `n` samples, with the three
`ValueError` conditions of the constructor and of `split`. -/
def tssSplit (n k : Nat) : Except SplitError (List (List Nat × List Nat)) :=
  if k < 2 then Except.error SplitError.tooFewSplits
  else if n < k + 1 then Except.error SplitError.foldsExceedSamples
  else if n ≤ testSize n k * k then Except.error SplitError.tooManySplitsForSamples
  else Except.ok (foldsOf n k)

/-- numpy fancy assignment `oof[te] = vals`: set every position of `te`. -/
def writeFold (v : List (Option ℚ)) (te : List Nat) (val : Nat → ℚ) : List (Option ℚ) :=
  te.foldl (fun w j => w.set j (some (val j))) v

/-- Accumulate the out-of-sample vector across folds, starting from the
all-NaN vector `np.full(y.shape, np.nan)`. -/
def oofVector (n : Nat) (folds : List (List Nat × List Nat)) (val : List Nat → Nat → ℚ) :
    List (Option ℚ) :=
  folds.foldl (fun v f => writeFold v f.2 (val f.1)) (List.replicate n none)

/-- `time_series_cv_predictions` on `n` aligned rows with `k` splits.  The
fitted pipeline is abstracted: `predictF tr i` (resp. `probaF tr i`) is the
class (resp. positive-class probability) that the pipeline fitted on
training rows `tr` assigns to row `i`.  Returns the stacked OOS prediction
vector, OOS probability vector, and the fold index pairs. -/
def time_series_cv_predictions (n k : Nat) (predictF probaF : List Nat → Nat → ℚ) :
    Except SplitError (List (Option ℚ) × List (Option ℚ) × List (List Nat × List Nat)) :=
  (tssSplit n k).map (fun folds =>
    (oofVector n folds predictF, oofVector n folds probaF, folds))

/-! #### Basic fold geometry lemmas -/

theorem mem_foldTest {n k f i : Nat} :
    i ∈ foldTest n k f ↔
      blockOne n k + f * testSize n k ≤ i ∧
        i < blockOne n k + f * testSize n k + testSize n k := by
  unfold foldTest
  simp only [List.mem_map, List.mem_range]
  constructor
  · rintro ⟨j, hj, rfl⟩
    omega
  · rintro ⟨h1, h2⟩
    exact ⟨i - (blockOne n k + f * testSize n k), by omega, by omega⟩

theorem testSize_pos {n k : Nat} (hn : k + 1 ≤ n) : 0 < testSize n k :=
  Nat.one_le_div_iff (Nat.succ_pos k) |>.mpr hn

theorem mul_testSize_le {n k : Nat} : testSize n k * (k + 1) ≤ n :=
  Nat.div_mul_le_self n (k + 1)

theorem tssSplit_ok {n k : Nat} (hk : 2 ≤ k) (hn : k + 1 ≤ n) :
    tssSplit n k = Except.ok (foldsOf n k) := by
  have ht : 0 < testSize n k := testSize_pos hn
  have hmul : testSize n k * (k + 1) ≤ n := mul_testSize_le
  have h3 : ¬ n ≤ testSize n k * k := by
    have : testSize n k * k + testSize n k = testSize n k * (k + 1) := by ring
    omega
  unfold tssSplit
  rw [if_neg (by omega), if_neg (by omega), if_neg h3]

theorem tssSplit_error {n k : Nat} (h : n < k + 1) : ∃ e, tssSplit n k = Except.error e := by
  unfold tssSplit
  by_cases hk : k < 2
  · exact ⟨SplitError.tooFewSplits, by rw [if_pos hk]⟩
  · exact ⟨SplitError.foldsExceedSamples, by rw [if_neg hk, if_pos h]⟩

/-- Test sets of distinct folds are disjoint. -/
theorem foldsOf_pairwise_disjoint (n k : Nat) :
    List.Pairwise (fun f g => ∀ i, i ∈ f.2 → i ∉ g.2) (foldsOf n k) := by
  unfold foldsOf
  rw [List.pairwise_map]
  have h := List.pairwise_lt_range k
  refine h.imp ?_
  intro a b hab i hia hib
  rw [mem_foldTest] at hia hib
  have : (a + 1) * testSize n k ≤ b * testSize n k :=
    Nat.mul_le_mul_right _ (by omega)
  have h1 : a * testSize n k + testSize n k = (a + 1) * testSize n k := by ring
  omega

/-- A position is in some fold's test set iff it lies in the trailing
`n - blockOne` positions. -/
theorem mem_some_foldTest_iff {n k : Nat} (hn : k + 1 ≤ n) (i : Nat) :
    (∃ f ∈ foldsOf n k, i ∈ f.2) ↔ blockOne n k ≤ i ∧ i < n := by
  have ht : 0 < testSize n k := testSize_pos hn
  have hmul : testSize n k * (k + 1) ≤ n := mul_testSize_le
  have hble : k * testSize n k ≤ n := by
    have hc : testSize n k * (k + 1) = k * testSize n k + testSize n k := by ring
    omega
  have hbk : blockOne n k + k * testSize n k = n := by
    unfold blockOne; omega
  unfold foldsOf
  simp only [List.mem_map, List.mem_range]
  constructor
  · rintro ⟨p, ⟨f, hf, rfl⟩, hmem⟩
    rw [mem_foldTest] at hmem
    have : (f + 1) * testSize n k ≤ k * testSize n k :=
      Nat.mul_le_mul_right _ (by omega)
    have h1 : f * testSize n k + testSize n k = (f + 1) * testSize n k := by ring
    omega
  · rintro ⟨h1, h2⟩
    refine ⟨(foldTrain n k ((i - blockOne n k) / testSize n k),
        foldTest n k ((i - blockOne n k) / testSize n k)),
      ⟨(i - blockOne n k) / testSize n k, ?_, rfl⟩, ?_⟩
    · exact Nat.div_lt_iff_lt_mul ht |>.mpr (by omega)
    · rw [mem_foldTest]
      have hdm := Nat.div_add_mod (i - blockOne n k) (testSize n k)
      have hmod : (i - blockOne n k) % testSize n k < testSize n k := Nat.mod_lt _ ht
      have hq : testSize n k * ((i - blockOne n k) / testSize n k) =
          ((i - blockOne n k) / testSize n k) * testSize n k := Nat.mul_comm _ _
      omega

/-- Every training index of a fold strictly precedes every test index. -/
theorem foldTrain_lt_foldTest {n k f a b : Nat}
    (ha : a ∈ foldTrain n k f) (hb : b ∈ foldTest n k f) : a < b := by
  unfold foldTrain at ha
  rw [List.mem_range] at ha
  rw [mem_foldTest] at hb
  omega

theorem tssSplit_ok_inv {n k : Nat} {folds : List (List Nat × List Nat)}
    (h : tssSplit n k = Except.ok folds) :
    2 ≤ k ∧ k + 1 ≤ n ∧ folds = foldsOf n k := by
  unfold tssSplit at h
  split at h
  · exact absurd h (by simp)
  next hk =>
    split at h
    · exact absurd h (by simp)
    next hn =>
      split at h
      · exact absurd h (by simp)
      next h3 => exact ⟨by omega, by omega, (Except.ok.injEq _ _).mp h |>.symm⟩

/-! #### OOS vector lemmas -/

theorem writeFold_getElem?_of_not_mem {v : List (Option ℚ)} {te : List Nat} {val : Nat → ℚ}
    {i : Nat} (hi : i ∉ te) : (writeFold v te val)[i]? = v[i]? := by
  unfold writeFold
  induction te generalizing v with
  | nil => rfl
  | cons j t ih =>
    simp only [List.mem_cons, not_or] at hi
    rw [List.foldl_cons, ih hi.2, List.getElem?_set_ne (fun hj => hi.1 hj.symm)]

theorem foldl_writeFold_getElem? {folds : List (List Nat × List Nat)}
    {val : List Nat → Nat → ℚ} {i : Nat} (h : ∀ f ∈ folds, i ∉ f.2) :
    ∀ v : List (Option ℚ),
      (folds.foldl (fun w g => writeFold w g.2 (val g.1)) v)[i]? = v[i]? := by
  induction folds with
  | nil => intro v; rfl
  | cons f t ih =>
    intro v
    rw [List.foldl_cons, ih (fun g hg => h g (List.mem_cons_of_mem f hg)),
      writeFold_getElem?_of_not_mem (h f (List.mem_cons_self f t))]

theorem oofVector_getElem?_of_not_mem {n : Nat} {folds : List (List Nat × List Nat)}
    {val : List Nat → Nat → ℚ} {i : Nat} (h : ∀ f ∈ folds, i ∉ f.2) :
    (oofVector n folds val)[i]? = (List.replicate n (none : Option ℚ))[i]? :=
  foldl_writeFold_getElem? h _

/-- In the leading block no fold's test set contains the position. -/
theorem not_mem_foldTest_of_lt_blockOne {n k i : Nat} (hi : i < blockOne n k) :
    ∀ f ∈ foldsOf n k, i ∉ f.2 := by
  intro f hf hmem
  obtain ⟨f0, _, rfl⟩ := List.mem_map.mp hf
  rw [mem_foldTest] at hmem
  omega

/-- At most one element of a pairwise-disjoint fold list has a test set
containing a given position. -/
theorem length_filter_mem_le_one {folds : List (List Nat × List Nat)} (i : Nat)
    (hp : List.Pairwise (fun f g => ∀ j, j ∈ f.2 → j ∉ g.2) folds) :
    (folds.filter (fun f => decide (i ∈ f.2))).length ≤ 1 := by
  induction folds with
  | nil => simp
  | cons f t ih =>
    rcases List.pairwise_cons.mp hp with ⟨hf, ht⟩
    by_cases hmem : i ∈ f.2
    · rw [List.filter_cons_of_pos (by simpa using hmem)]
      have hnil : t.filter (fun g => decide (i ∈ g.2)) = [] :=
        List.filter_eq_nil_iff.mpr (fun g hg => by simpa using hf g hg i hmem)
      simp [hnil]
    · rw [List.filter_cons_of_neg (by simpa using hmem)]
      exact ih ht

/-- Unpack a successful run of the evaluator into its components. -/
theorem time_series_cv_predictions_ok_inv {n k : Nat}
    {predictF probaF : List Nat → Nat → ℚ}
    {res : List (Option ℚ) × List (Option ℚ) × List (List Nat × List Nat)}
    (h : time_series_cv_predictions n k predictF probaF = Except.ok res) :
    res.2.2 = foldsOf n k ∧ 2 ≤ k ∧ k + 1 ≤ n ∧
      res.1 = oofVector n (foldsOf n k) predictF ∧
      res.2.1 = oofVector n (foldsOf n k) probaF := by
  unfold time_series_cv_predictions at h
  cases htss : tssSplit n k with
  | error e => rw [htss] at h; exact absurd h (by simp [Except.map])
  | ok folds =>
    obtain ⟨hk, hn, hfolds⟩ := tssSplit_ok_inv htss
    rw [htss] at h
    simp only [Except.map, Except.ok.injEq] at h
    subst hfolds
    rw [← h]
    exact ⟨rfl, hk, hn, rfl, rfl⟩

/-- Count of positions below a bound inside an initial segment. -/
theorem length_filter_lt_range (n b : Nat) :
    ((List.range n).filter (fun i => decide (i < b))).length = min b n := by
  induction n with
  | zero => simp
  | succ m ih =>
    rw [List.range_succ, List.filter_append, List.length_append, ih]
    by_cases h : m < b
    · simp only [List.filter_cons, decide_eq_true h, if_pos (decide_eq_true h)]
      simp
      omega
    · simp only [List.filter_cons, List.filter_nil]
      rw [if_neg (by simpa using h)]
      simp
      omega

/-! ### Claim theorems about the walk-forward evaluator -/

/-- C1 (counterexample): the claim quantifies over every fold count K with
K ≤ N, but at N = 2, K = 2 the split construction raises (`TimeSeriesSplit`
needs at least K + 1 samples), so no fold test sets exist at all and the
claimed disjoint-cover geometry cannot hold. -/
theorem claim_C1_counterexample :
    (2 : Nat) ≤ 2 ∧ ¬ ∃ folds, tssSplit 2 2 = Except.ok folds := by
  refine ⟨le_refl 2, ?_⟩
  rintro ⟨folds, h⟩
  rw [show tssSplit 2 2 = Except.error SplitError.foldsExceedSamples from rfl] at h
  exact Except.noConfusion h

/-- C1 (amended): for every fold count K with 2 ≤ K and K + 1 ≤ N, the
Walk-Forward Evaluator's split succeeds, its fold test index sets are
pairwise disjoint, they jointly cover exactly the trailing row positions
from the end of block 1 to N, and every training index of a fold is
strictly below every test index of that fold. -/
theorem claim_C1 (n k : Nat) (hk : 2 ≤ k) (hn : k + 1 ≤ n) :
    ∃ folds, tssSplit n k = Except.ok folds ∧
      List.Pairwise (fun f g => ∀ i, i ∈ f.2 → i ∉ g.2) folds ∧
      (∀ i, (∃ f ∈ folds, i ∈ f.2) ↔ (blockOne n k ≤ i ∧ i < n)) ∧
      (∀ f ∈ folds, ∀ a ∈ f.1, ∀ b ∈ f.2, a < b) := by
  refine ⟨foldsOf n k, tssSplit_ok hk hn, foldsOf_pairwise_disjoint n k,
    fun i => mem_some_foldTest_iff hn i, ?_⟩
  intro f hf a ha b hb
  obtain ⟨f0, _, rfl⟩ := List.mem_map.mp hf
  exact foldTrain_lt_foldTest ha hb

/-- Witness for C1 at N = 10, K = 2. -/
theorem claim_C1_witness :
    ∃ folds, tssSplit 10 2 = Except.ok folds ∧
      List.Pairwise (fun f g => ∀ i, i ∈ f.2 → i ∉ g.2) folds ∧
      (∀ i, (∃ f ∈ folds, i ∈ f.2) ↔ (blockOne 10 2 ≤ i ∧ i < 10)) ∧
      (∀ f ∈ folds, ∀ a ∈ f.1, ∀ b ∈ f.2, a < b) :=
  claim_C1 10 2 (by omega) (by omega)

/-- C9: the evaluator raises whenever N < K + 1 and produces no
predictions; on success every one of the K test sets has exactly
⌊N/(K+1)⌋ rows and the leading never-tested block absorbs the remainder,
holding exactly N − K·⌊N/(K+1)⌋ rows. -/
theorem claim_C9 (n k : Nat) (predictF probaF : List Nat → Nat → ℚ) :
    (n < k + 1 → ∃ e, time_series_cv_predictions n k predictF probaF = Except.error e) ∧
    (∀ res, time_series_cv_predictions n k predictF probaF = Except.ok res →
      res.2.2.length = k ∧
      (∀ f ∈ res.2.2, f.2.length = n / (k + 1)) ∧
      ((List.range n).filter
          (fun i => res.2.2.all (fun f => !decide (i ∈ f.2)))).length
        = n - k * (n / (k + 1))) := by
  constructor
  · intro hn
    obtain ⟨e, he⟩ := tssSplit_error hn
    exact ⟨e, by unfold time_series_cv_predictions; rw [he]; rfl⟩
  · intro res hres
    obtain ⟨hfolds, hk, hn, -, -⟩ := time_series_cv_predictions_ok_inv hres
    rw [hfolds]
    refine ⟨by simp [foldsOf], ?_, ?_⟩
    · intro f hf
      obtain ⟨f0, _, rfl⟩ := List.mem_map.mp hf
      simp [foldTest, testSize]
    · have hcong : ∀ i ∈ List.range n,
          (foldsOf n k).all (fun f => !decide (i ∈ f.2)) = decide (i < blockOne n k) := by
        intro i hir
        have hin : i < n := List.mem_range.mp hir
        by_cases hib : i < blockOne n k
        · rw [decide_eq_true hib]
          rw [List.all_eq_true]
          intro f hf
          simpa using not_mem_foldTest_of_lt_blockOne hib f hf
        · rw [decide_eq_false hib]
          obtain ⟨f, hf, hmem⟩ := (mem_some_foldTest_iff hn i).mpr ⟨by omega, hin⟩
          rw [List.all_eq_false]
          exact ⟨f, hf, by simpa using hmem⟩
      rw [List.filter_congr hcong, length_filter_lt_range]
      unfold blockOne testSize
      have : n / (k + 1) * (k + 1) ≤ n := Nat.div_mul_le_self n (k + 1)
      omega

/-- Witness for C9: raising case at N = 2, K = 2 and success case at
N = 10, K = 2 (test size 3, first block of size 4). -/
theorem claim_C9_witness :
    (∃ e, time_series_cv_predictions 2 2 (fun _ _ => 0) (fun _ _ => 0) = Except.error e) ∧
    (time_series_cv_predictions 10 2 (fun _ _ => 0) (fun _ _ => 0)).map
        (fun res => res.2.2.length) = Except.ok 2 := by
  constructor
  · exact (claim_C9 2 2 (fun _ _ => 0) (fun _ _ => 0)).1 (by omega)
  · have h : time_series_cv_predictions 10 2 (fun _ _ => 0) (fun _ _ => 0) =
        Except.ok (oofVector 10 (foldsOf 10 2) (fun _ _ => 0),
          oofVector 10 (foldsOf 10 2) (fun _ _ => 0), foldsOf 10 2) := rfl
    have hc := (claim_C9 10 2 (fun _ _ => 0) (fun _ _ => 0)).2 _ h
    rw [h, Except.map]
    exact congrArg Except.ok hc.1

/-- C3: on a successful run, each row position lies in at most one fold's
test set (so it is written by at most one fold), and every position in the
first block is never written: both OOS vectors still hold the NaN sentinel
there on return. -/
theorem claim_C3 (n k : Nat) (predictF probaF : List Nat → Nat → ℚ)
    (res : List (Option ℚ) × List (Option ℚ) × List (List Nat × List Nat))
    (h : time_series_cv_predictions n k predictF probaF = Except.ok res) :
    (∀ i, (res.2.2.filter (fun f => decide (i ∈ f.2))).length ≤ 1) ∧
    (∀ i, i < blockOne n k → res.1[i]? = some none ∧ res.2.1[i]? = some none) := by
  obtain ⟨hfolds, hk, hn, hp, hq⟩ := time_series_cv_predictions_ok_inv h
  constructor
  · intro i
    rw [hfolds]
    exact length_filter_mem_le_one i (foldsOf_pairwise_disjoint n k)
  · intro i hi
    have hnotin := not_mem_foldTest_of_lt_blockOne hi
    have hin : i < n := by
      have : blockOne n k ≤ n := Nat.sub_le _ _
      omega
    have hrep : (List.replicate n (none : Option ℚ))[i]? = some none := by
      rw [List.getElem?_replicate]
      simp [hin]
    rw [hp, hq, oofVector_getElem?_of_not_mem hnotin, oofVector_getElem?_of_not_mem hnotin]
    exact ⟨hrep, hrep⟩

/-- Witness for C3 at N = 10, K = 2 with a constant fitted model: the first
block is rows 0–3 and both OOS vectors hold the sentinel at row 0. -/
theorem claim_C3_witness :
    (time_series_cv_predictions 10 2 (fun _ _ => 0) (fun _ _ => 0)).map
        (fun res => res.1[0]?) = Except.ok (some none) ∧
    (time_series_cv_predictions 10 2 (fun _ _ => 0) (fun _ _ => 0)).map
        (fun res => res.2.1[0]?) = Except.ok (some none) := by
  have h : time_series_cv_predictions 10 2 (fun _ _ => 0) (fun _ _ => 0) =
      Except.ok (oofVector 10 (foldsOf 10 2) (fun _ _ => 0),
        oofVector 10 (foldsOf 10 2) (fun _ _ => 0), foldsOf 10 2) := rfl
  have hc := (claim_C3 10 2 (fun _ _ => 0) (fun _ _ => 0) _ h).2 0 (by decide)
  rw [h, Except.map, Except.map]
  exact ⟨congrArg Except.ok hc.1, congrArg Except.ok hc.2⟩

/-! ### Feature builder (features.py, `make_feature_table` and `_rsi`)

Each pandas column is a function from a 0-based row position to an
optional rational; `none` is NaN. -/

/-- Close price of row `i` (`df['close']`); `none` past the end. -/
def closeAt (cs : List ℚ) (i : Nat) : Option ℚ := cs[i]?

/-- pandas `Series.pct_change(n)`: `(x_i - x_(i-n)) / x_(i-n)`, NaN for the
first `n` rows.  Rational division totalizes the zero-denominator corner
that IEEE arithmetic sends to inf; no claim inspects that corner. -/
def pctChange (cs : List ℚ) (n i : Nat) : Option ℚ :=
  if n ≤ i then
    (cs[i]?).bind (fun a => (cs[i - n]?).map (fun b => (a - b) / b))
  else none

/-- Collapse a list of optional values; `none` if any entry is missing. -/
def allSome : List (Option ℚ) → Option (List ℚ)
  | [] => some []
  | none :: _ => none
  | some a :: t => (allSome t).map (fun l => a :: l)

/-- The length-`n` rolling window ending at row `i` (entries `i-n+1 .. i`),
defined only when the window fits inside the series and every entry is
present (pandas default `min_periods = n`). -/
def rollWindow (f : Nat → Option ℚ) (n i : Nat) : Option (List ℚ) :=
  if i + 1 < n then none
  else allSome ((List.range n).map (fun j => f (i - j)))

/-- pandas `rolling(n).mean()` over an optional-valued series. -/
def rollingMean (f : Nat → Option ℚ) (n i : Nat) : Option ℚ :=
  (rollWindow f n i).map (fun xs => xs.sum / (n : ℚ))

/-- pandas `rolling(n).std()` over an optional-valued series, embedded by
its square (the ddof = 1 sample variance): the square root is irrational
in general; definedness, the only aspect any claim uses, is identical. -/
def rollingStdSq (f : Nat → Option ℚ) (n i : Nat) : Option ℚ :=
  (rollWindow f n i).map (fun xs =>
    (xs.map (fun x => (x - xs.sum / (n : ℚ)) ^ 2)).sum / ((n : ℚ) - 1))

/-- `df['ret_1d'] = df['close'].pct_change()`. -/
def ret_1d (cs : List ℚ) (i : Nat) : Option ℚ := pctChange cs 1 i

/-- `df['ret_5d'] = df['close'].pct_change(5)`. -/
def ret_5d (cs : List ℚ) (i : Nat) : Option ℚ := pctChange cs 5 i

/-- `df['mom_5'] = df['close'].pct_change(5)`. -/
def mom_5 (cs : List ℚ) (i : Nat) : Option ℚ := pctChange cs 5 i

/-- `df['mom_20'] = df['close'].pct_change(20)`. -/
def mom_20 (cs : List ℚ) (i : Nat) : Option ℚ := pctChange cs 20 i

/-- `df['ma_10'] = df['close'].rolling(10).mean()`. -/
def ma_10 (cs : List ℚ) (i : Nat) : Option ℚ := rollingMean (closeAt cs) 10 i

/-- `df['ma_50'] = df['close'].rolling(50).mean()`. -/
def ma_50 (cs : List ℚ) (i : Nat) : Option ℚ := rollingMean (closeAt cs) 50 i

/-- `df['ma_cross'] = (df['ma_10'] > df['ma_50']).astype(int)`; a
comparison against NaN is False. -/
def ma_cross (cs : List ℚ) (i : Nat) : ℚ :=
  match ma_10 cs i, ma_50 cs i with
  | some a, some b => if b < a then 1 else 0
  | _, _ => 0

/-- `df['vol_10'] = df['ret_1d'].rolling(10).std()`. -/
def vol_10 (cs : List ℚ) (i : Nat) : Option ℚ := rollingStdSq (ret_1d cs) 10 i

/-- `_rsi`: `delta = close.diff()`. -/
def deltaClose (cs : List ℚ) (i : Nat) : Option ℚ :=
  if 1 ≤ i then
    (cs[i]?).bind (fun a => (cs[i - 1]?).map (fun b => a - b))
  else none

/-- `_rsi`: `up = delta.clip(lower=0)`. -/
def upGain (cs : List ℚ) (i : Nat) : Option ℚ := (deltaClose cs i).map (fun d => max d 0)

/-- `_rsi`: `down = -delta.clip(upper=0)`. -/
def downLoss (cs : List ℚ) (i : Nat) : Option ℚ := (deltaClose cs i).map (fun d => max (-d) 0)

/-- `_rsi`: `ma_up = up.rolling(n, min_periods=n).mean()` with n = 14. -/
def ma_up (cs : List ℚ) (i : Nat) : Option ℚ := rollingMean (upGain cs) 14 i

/-- `_rsi`: `ma_down = down.rolling(n, min_periods=n).mean()` with n = 14. -/
def ma_down (cs : List ℚ) (i : Nat) : Option ℚ := rollingMean (downLoss cs) 14 i

/-- The oscillator `100 - 100 / (1 + g / l)` on nonnegative averages under
IEEE semantics: a positive average loss gives the finite value; a zero
loss with positive gain makes the ratio diverge, `100/(1+rs)` vanish and
the result exactly 100; zero gain and zero loss give `0/0` = NaN. -/
def rsiOf (g l : ℚ) : Option ℚ :=
  if 0 < l then some (100 - 100 / (1 + g / l))
  else if 0 < g then some 100
  else none

/-- `df['rsi_14'] = _rsi(df['close'], 14)`. -/
def rsi_14 (cs : List ℚ) (i : Nat) : Option ℚ :=
  match ma_up cs i, ma_down cs i with
  | some g, some l => rsiOf g l
  | _, _ => none

/-- `df['fwd_5d_ret'] = df['close'].pct_change(5).shift(-5)`. -/
def fwd_5d_ret (cs : List ℚ) (i : Nat) : Option ℚ := pctChange cs 5 (i + 5)

/-- `df['y_cls'] = (df['fwd_5d_ret'] > 0).astype(int)`; a comparison
against NaN is False. -/
def y_cls (cs : List ℚ) (i : Nat) : ℚ :=
  match fwd_5d_ret cs i with
  | some r => if 0 < r then 1 else 0
  | none => 0

/-- A row survives `df.dropna()`: every float column of `df` is defined
(`ma_cross` and `y_cls` are int columns and never NaN). -/
def rowDefined (cs : List ℚ) (i : Nat) : Bool :=
  (closeAt cs i).isSome && (ret_1d cs i).isSome && (ret_5d cs i).isSome &&
  (mom_5 cs i).isSome && (mom_20 cs i).isSome && (ma_10 cs i).isSome &&
  (ma_50 cs i).isSome && (vol_10 cs i).isSome && (rsi_14 cs i).isSome &&
  (fwd_5d_ret cs i).isSome

/-- Row positions kept by `df.dropna()`. -/
def keptRows (cs : List ℚ) : List Nat := (List.range cs.length).filter (rowDefined cs)

/-- The feature names of `feature_cols`, in order. -/
inductive FeatureName
  | mom_5 | mom_20 | vol_10 | ma_10 | ma_50 | ma_cross | rsi_14
  deriving DecidableEq, Repr

/-- `feature_cols = ['mom_5','mom_20','vol_10','ma_10','ma_50','ma_cross','rsi_14']`. -/
def feature_cols : List FeatureName :=
  [.mom_5, .mom_20, .vol_10, .ma_10, .ma_50, .ma_cross, .rsi_14]

/-- One row of the feature table X, in `feature_cols` order. -/
def featRow (cs : List ℚ) (i : Nat) : List (Option ℚ) :=
  [mom_5 cs i, mom_20 cs i, vol_10 cs i, ma_10 cs i, ma_50 cs i,
    some (ma_cross cs i), rsi_14 cs i]

/-- One row of the metadata table (close, 1-day return, forward 5-day return). -/
def metaRow (cs : List ℚ) (i : Nat) : List (Option ℚ) :=
  [closeAt cs i, ret_1d cs i, fwd_5d_ret cs i]

/-- `make_feature_table`: feature table X, label vector y, metadata table,
and the ordered feature names, all restricted to the rows kept by dropna. -/
def make_feature_table (cs : List ℚ) :
    List (List (Option ℚ)) × List ℚ × List (List (Option ℚ)) × List FeatureName :=
  ((keptRows cs).map (featRow cs), (keptRows cs).map (y_cls cs),
    (keptRows cs).map (metaRow cs), feature_cols)

/-- `make_feature_table` together with the caller's price series after the
call: the source copies its input (`df = prices.copy()`) and every later
column assignment writes to the copy, so the input is returned unchanged. -/
def make_feature_table_run (prices : List ℚ) :
    List ℚ ×
      (List (List (Option ℚ)) × List ℚ × List (List (Option ℚ)) × List FeatureName) :=
  (prices, make_feature_table prices)

/-! #### Definedness lemmas for the feature columns -/

theorem allSome_isSome_iff {l : List (Option ℚ)} :
    (allSome l).isSome ↔ ∀ x ∈ l, x.isSome := by
  induction l with
  | nil => simp [allSome]
  | cons x t ih => cases x <;> simp [allSome, ih]

theorem allSome_replicate (n : Nat) (a : ℚ) :
    allSome (List.replicate n (some a)) = some (List.replicate n a) := by
  induction n with
  | zero => rfl
  | succ m ih =>
    rw [List.replicate_succ, List.replicate_succ]
    unfold allSome
    rw [ih]
    rfl

theorem pctChange_isSome {cs : List ℚ} {n i : Nat} :
    (pctChange cs n i).isSome ↔ n ≤ i ∧ i < cs.length := by
  unfold pctChange
  by_cases h : n ≤ i
  · rw [if_pos h]
    by_cases hi : i < cs.length
    · rw [List.getElem?_eq_getElem hi,
        List.getElem?_eq_getElem (show i - n < cs.length by omega)]
      simp [h, hi]
    · rw [List.getElem?_eq_none (by omega)]
      simp [h, hi]
  · rw [if_neg h]
    simp [h]

theorem rollWindow_isSome {f : Nat → Option ℚ} {n i : Nat} :
    (rollWindow f n i).isSome ↔ n ≤ i + 1 ∧ ∀ j < n, (f (i - j)).isSome := by
  unfold rollWindow
  by_cases h : i + 1 < n
  · rw [if_pos h]
    constructor
    · intro hs
      simp at hs
    · rintro ⟨h1, -⟩
      omega
  · rw [if_neg h]
    rw [allSome_isSome_iff]
    constructor
    · intro hall
      refine ⟨by omega, fun j hj =>
        hall _ (List.mem_map.mpr ⟨j, List.mem_range.mpr hj, rfl⟩)⟩
    · rintro ⟨-, hall⟩ x hx
      obtain ⟨j, hj, rfl⟩ := List.mem_map.mp hx
      exact hall j (List.mem_range.mp hj)

theorem rollingMean_isSome {f : Nat → Option ℚ} {n i : Nat} :
    (rollingMean f n i).isSome = (rollWindow f n i).isSome := by
  unfold rollingMean
  cases rollWindow f n i <;> rfl

theorem rollingStdSq_isSome {f : Nat → Option ℚ} {n i : Nat} :
    (rollingStdSq f n i).isSome = (rollWindow f n i).isSome := by
  unfold rollingStdSq
  cases rollWindow f n i <;> rfl

/-- A rolling mean over a window of constant entries is that constant. -/
theorem rollingMean_const {f : Nat → Option ℚ} {n i : Nat} {a : ℚ} (hn : 0 < n)
    (hfit : ¬ i + 1 < n) (h : ∀ j < n, f (i - j) = some a) :
    rollingMean f n i = some a := by
  have hmap : (List.range n).map (fun j => f (i - j)) = List.replicate n (some a) := by
    rw [List.eq_replicate_iff]
    refine ⟨by simp, fun b hb => ?_⟩
    obtain ⟨j, hj, rfl⟩ := List.mem_map.mp hb
    exact h j (List.mem_range.mp hj)
  unfold rollingMean rollWindow
  rw [if_neg hfit, hmap, allSome_replicate, Option.map_some']
  congr 1
  rw [List.sum_replicate, nsmul_eq_mul]
  exact mul_div_cancel_left₀ a (Nat.cast_ne_zero.mpr (by omega))

/-- Every row kept by dropna has the full 50-day history and the 5-day
forward horizon inside the series. -/
theorem rowDefined_bounds {cs : List ℚ} {i : Nat} (h : rowDefined cs i = true) :
    49 ≤ i ∧ i + 5 < cs.length := by
  unfold rowDefined at h
  simp only [Bool.and_eq_true] at h
  have h50 : (ma_50 cs i).isSome := h.1.1.1.2
  have hfwd : (fwd_5d_ret cs i).isSome := h.2
  unfold ma_50 at h50
  rw [rollingMean_isSome, rollWindow_isSome] at h50
  obtain ⟨hfit, hentries⟩ := h50
  have hlen : i < cs.length := by
    by_contra hcon
    have h0 := hentries 0 (by omega)
    unfold closeAt at h0
    rw [List.getElem?_eq_none (by omega)] at h0
    exact Bool.noConfusion h0
  unfold fwd_5d_ret at hfwd
  rw [pctChange_isSome] at hfwd
  omega

/-! ### Claim theorems about the feature builder -/

/-- C2 (amended): the Feature Builder drops every row in which any feature
or the label is undefined, so the number of output rows is at most
L − 54: the 50-day moving average is first defined on the 50th row (49
head rows lack it) and the last 5 rows lack the forward label. -/
theorem claim_C2 (cs : List ℚ) :
    ((make_feature_table cs).1).length ≤ cs.length - 54 := by
  have hlen : ((make_feature_table cs).1).length = (keptRows cs).length := by
    simp [make_feature_table]
  rw [hlen]
  have hnd : (keptRows cs).Nodup := (List.nodup_range _).filter _
  have hsubset : (keptRows cs).toFinset ⊆ Finset.Ico 49 (cs.length - 5) := by
    intro i hi
    have hmem := List.mem_toFinset.mp hi
    have hr : rowDefined cs i = true := List.of_mem_filter hmem
    have hb := rowDefined_bounds hr
    rw [Finset.mem_Ico]
    omega
  have hcard := Finset.card_le_card hsubset
  rw [List.toFinset_card_of_nodup hnd, Nat.card_Ico] at hcard
  omega

/-- The counterexample price series for C2: the strictly increasing series
1, 2, …, 55. -/
def cexPrices : List ℚ := (List.range 55).map (fun i : Nat => ((i : ℚ) + 1))

theorem cexPrices_length : cexPrices.length = 55 := by
  unfold cexPrices
  rw [List.length_map, List.length_range]

theorem cexPrices_getElem? {j : Nat} (h : j < 55) :
    cexPrices[j]? = some ((j : ℚ) + 1) := by
  unfold cexPrices
  rw [List.getElem?_map, List.getElem?_range h]
  rfl

theorem cex_delta {j : Nat} (h1 : 1 ≤ j) (h2 : j < 55) :
    deltaClose cexPrices j = some 1 := by
  unfold deltaClose
  rw [if_pos h1, cexPrices_getElem? h2, cexPrices_getElem? (by omega)]
  simp only [Option.some_bind, Option.map_some']
  congr 1
  rw [Nat.cast_sub h1, Nat.cast_one]
  ring

theorem cex_upGain {j : Nat} (h1 : 1 ≤ j) (h2 : j < 55) :
    upGain cexPrices j = some 1 := by
  unfold upGain
  rw [cex_delta h1 h2, Option.map_some']
  norm_num

theorem cex_downLoss {j : Nat} (h1 : 1 ≤ j) (h2 : j < 55) :
    downLoss cexPrices j = some 0 := by
  unfold downLoss
  rw [cex_delta h1 h2, Option.map_some']
  norm_num

theorem cex_rsi : rsi_14 cexPrices 49 = some 100 := by
  have hup : ma_up cexPrices 49 = some 1 :=
    rollingMean_const (by omega) (by omega) (fun j hj => cex_upGain (by omega) (by omega))
  have hdown : ma_down cexPrices 49 = some 0 :=
    rollingMean_const (by omega) (by omega) (fun j hj => cex_downLoss (by omega) (by omega))
  unfold rsi_14
  rw [hup, hdown]
  show rsiOf 1 0 = some 100
  unfold rsiOf
  rw [if_neg (lt_irrefl 0), if_pos one_pos]

theorem cex_rowDefined : rowDefined cexPrices 49 = true := by
  have hclose : ∀ j < (55 : Nat), (closeAt cexPrices j).isSome := by
    intro j hj
    unfold closeAt
    rw [cexPrices_getElem? hj]
    rfl
  have hret : ∀ m j : Nat, m ≤ j → j < 55 → (pctChange cexPrices m j).isSome :=
    fun m j hm hj => pctChange_isSome.mpr ⟨hm, by rw [cexPrices_length]; omega⟩
  unfold rowDefined
  simp only [Bool.and_eq_true]
  refine ⟨⟨⟨⟨⟨⟨⟨⟨⟨hclose 49 (by omega), ?_⟩, ?_⟩, ?_⟩, ?_⟩, ?_⟩, ?_⟩, ?_⟩, ?_⟩, ?_⟩
  · exact hret 1 49 (by omega) (by omega)
  · exact hret 5 49 (by omega) (by omega)
  · exact hret 5 49 (by omega) (by omega)
  · exact hret 20 49 (by omega) (by omega)
  · unfold ma_10
    rw [rollingMean_isSome, rollWindow_isSome]
    exact ⟨by omega, fun j hj => hclose _ (by omega)⟩
  · unfold ma_50
    rw [rollingMean_isSome, rollWindow_isSome]
    exact ⟨by omega, fun j hj => hclose _ (by omega)⟩
  · unfold vol_10
    rw [rollingStdSq_isSome, rollWindow_isSome]
    exact ⟨by omega, fun j hj => hret 1 _ (by omega) (by omega)⟩
  · rw [cex_rsi]
    rfl
  · unfold fwd_5d_ret
    exact hret 5 54 (by omega) (by omega)

/-- C2 (counterexample): on the strictly increasing 55-row price series the
output keeps row 49 (the 50th row), so the output has at least one row
while L − 55 = 0; the claimed bound "at most L − 55" fails. -/
theorem claim_C2_counterexample :
    cexPrices.length = 55 ∧
      ¬ ((make_feature_table cexPrices).1.length ≤ cexPrices.length - 55) := by
  refine ⟨cexPrices_length, ?_⟩
  intro hle
  have hmem : 49 ∈ keptRows cexPrices := by
    unfold keptRows
    rw [List.mem_filter]
    exact ⟨List.mem_range.mpr (by rw [cexPrices_length]; omega), cex_rowDefined⟩
  have hpos : 0 < (keptRows cexPrices).length :=
    List.length_pos.mpr (fun hnil => by rw [hnil] at hmem; exact List.not_mem_nil _ hmem)
  have hlen : (make_feature_table cexPrices).1.length = (keptRows cexPrices).length := by
    simp [make_feature_table]
  rw [hlen, cexPrices_length] at hle
  omega

/-- C7: the Feature Builder is a pure function of its input: the caller's
price series is unchanged after the call, the run returns exactly
`make_feature_table` of the input, and equal inputs give equal outputs
(all four components). -/
theorem claim_C7 (p q : List ℚ) (h : p = q) :
    (make_feature_table_run p).1 = p ∧
      (make_feature_table_run p).2 = make_feature_table p ∧
      make_feature_table_run p = make_feature_table_run q :=
  ⟨rfl, rfl, by rw [h]⟩

/-- Witness for C7 on a concrete three-row price series. -/
theorem claim_C7_witness :
    ([1, 2, 3] : List ℚ) = [1, 2, 3] ∧
      ((make_feature_table_run [1, 2, 3]).1 = [1, 2, 3] ∧
        (make_feature_table_run [1, 2, 3]).2 = make_feature_table [1, 2, 3] ∧
        make_feature_table_run [1, 2, 3] = make_feature_table_run [1, 2, 3]) :=
  ⟨rfl, claim_C7 [1, 2, 3] [1, 2, 3] rfl⟩

/-- C8: when the 14-day average loss is zero and the average gain positive,
`rsi_14` is exactly 100; when both averages are zero it is NaN and the
NaN-dropping step removes the row from the output. -/
theorem claim_C8 (cs : List ℚ) (i : Nat) (g l : ℚ)
    (hg : ma_up cs i = some g) (hl : ma_down cs i = some l) :
    (l = 0 → 0 < g → rsi_14 cs i = some 100) ∧
    (l = 0 → g = 0 → rsi_14 cs i = none ∧ i ∉ keptRows cs) := by
  have hr : rsi_14 cs i = rsiOf g l := by
    unfold rsi_14
    rw [hg, hl]
  constructor
  · rintro rfl hgpos
    rw [hr]
    unfold rsiOf
    rw [if_neg (lt_irrefl 0), if_pos hgpos]
  · rintro rfl rfl
    have hnone : rsi_14 cs i = none := by
      rw [hr]
      unfold rsiOf
      rw [if_neg (lt_irrefl 0), if_neg (lt_irrefl 0)]
    refine ⟨hnone, fun hmem => ?_⟩
    have hd : rowDefined cs i = true := List.of_mem_filter hmem
    unfold rowDefined at hd
    simp only [Bool.and_eq_true] at hd
    have hrsi : (rsi_14 cs i).isSome := hd.1.2
    rw [hnone] at hrsi
    exact Bool.noConfusion hrsi

theorem const_upGain {i : Nat} (h1 : 1 ≤ i) (h2 : i < 20) :
    upGain (List.replicate 20 (5 : ℚ)) i = some 0 := by
  unfold upGain deltaClose
  rw [if_pos h1, List.getElem?_replicate, List.getElem?_replicate,
    if_pos (show i < 20 by omega), if_pos (show i - 1 < 20 by omega)]
  simp

theorem const_downLoss {i : Nat} (h1 : 1 ≤ i) (h2 : i < 20) :
    downLoss (List.replicate 20 (5 : ℚ)) i = some 0 := by
  unfold downLoss deltaClose
  rw [if_pos h1, List.getElem?_replicate, List.getElem?_replicate,
    if_pos (show i < 20 by omega), if_pos (show i - 1 < 20 by omega)]
  simp

/-- Witness for C8 on a constant 20-row price series: both 14-day averages
are zero at row 14, RSI is NaN and the row is dropped. -/
theorem claim_C8_witness :
    ma_up (List.replicate 20 (5 : ℚ)) 14 = some 0 ∧
      ma_down (List.replicate 20 (5 : ℚ)) 14 = some 0 ∧
      rsi_14 (List.replicate 20 (5 : ℚ)) 14 = none ∧
      14 ∉ keptRows (List.replicate 20 (5 : ℚ)) := by
  have hup : ma_up (List.replicate 20 (5 : ℚ)) 14 = some 0 :=
    rollingMean_const (by omega) (by omega)
      (fun j hj => const_upGain (by omega) (by omega))
  have hdown : ma_down (List.replicate 20 (5 : ℚ)) 14 = some 0 :=
    rollingMean_const (by omega) (by omega)
      (fun j hj => const_downLoss (by omega) (by omega))
  have h := (claim_C8 (List.replicate 20 (5 : ℚ)) 14 0 0 hup hdown).2 rfl rfl
  exact ⟨hup, hdown, h.1, h.2⟩

/-- C10: `ma_cross` and the label are each exactly 0 or 1; `ma_cross` is 1
precisely when the 10-day average strictly exceeds the 50-day average
(0 otherwise, also when either average is undefined), and the label is 1
precisely when the forward 5-day return is defined and strictly positive. -/
theorem claim_C10 (cs : List ℚ) (i : Nat) :
    (ma_cross cs i = 0 ∨ ma_cross cs i = 1) ∧
    (ma_cross cs i = 1 ↔ ∃ a b, ma_10 cs i = some a ∧ ma_50 cs i = some b ∧ b < a) ∧
    (y_cls cs i = 0 ∨ y_cls cs i = 1) ∧
    (y_cls cs i = 1 ↔ ∃ r, fwd_5d_ret cs i = some r ∧ 0 < r) := by
  refine ⟨?_, ?_, ?_, ?_⟩
  · unfold ma_cross
    cases h10 : ma_10 cs i <;> cases h50 : ma_50 cs i <;> simp
    exact le_or_lt _ _
  · unfold ma_cross
    cases h10 : ma_10 cs i <;> cases h50 : ma_50 cs i <;> simp
  · unfold y_cls
    cases hf : fwd_5d_ret cs i <;> simp
    exact le_or_lt _ _
  · unfold y_cls
    cases hf : fwd_5d_ret cs i <;> simp

/-! ### Metrics aggregator (evaluate.py)

`classification_report_oos` and `simple_signal_pnl` over the embedded
vectors; library calls whose guards live in the repository code
(`zero_division=0`, the single-class ROC guard, the `.any()` guard, the
`ic == ic` NaN check) are modelled with those guards verbatim. -/

/-- numpy `astype(int)`: truncation toward zero (Int division of the
reduced numerator by the denominator). -/
def intTrunc (q : ℚ) : ℤ := q.num / (q.den : ℤ)

/-- The scored rows of `classification_report_oos`:
`mask = ~np.isnan(oof_pred)`; each row pairs the true label, the present
predicted value, and the (possibly missing) probability at that position. -/
def scoredRows (y_true : List ℚ) (oof_pred oof_proba : List (Option ℚ)) :
    List (ℚ × ℚ × Option ℚ) :=
  (y_true.zip (oof_pred.zip oof_proba)).filterMap
    (fun r => r.2.1.map (fun p => (r.1, p, r.2.2)))

/-- True positives of the positive class (`pos_label=1`). -/
def tpCount (rows : List (ℚ × ℚ × Option ℚ)) : Nat :=
  rows.countP (fun r => decide (intTrunc r.2.1 = 1 ∧ r.1 = 1))

/-- False positives of the positive class. -/
def fpCount (rows : List (ℚ × ℚ × Option ℚ)) : Nat :=
  rows.countP (fun r => decide (intTrunc r.2.1 = 1 ∧ r.1 ≠ 1))

/-- False negatives of the positive class. -/
def fnCount (rows : List (ℚ × ℚ × Option ℚ)) : Nat :=
  rows.countP (fun r => decide (intTrunc r.2.1 ≠ 1 ∧ r.1 = 1))

/-- `len(np.unique(y)) > 1`: two distinct values occur among the labels. -/
def hasTwoClasses (l : List ℚ) : Bool :=
  l.any (fun a => l.any (fun b => decide (a ≠ b)))

/-- Modelled library call (sklearn.metrics.roc_auc_score): the binary-case
Mann–Whitney statistic over (positive, negative) score pairs with ties at
half weight.  A missing probability cannot occur at a scored position in
this pipeline (predictions and probabilities are written at the same test
positions) and is skipped; only the single-class guard written in
`classification_report_oos` itself is inspected by the claims. -/
def rocAucScore (pairs : List (ℚ × ℚ)) : ℚ :=
  ((pairs.filter (fun p => decide (p.1 = 1))).map (fun p =>
      ((pairs.filter (fun p2 => decide (p2.1 ≠ 1))).map (fun p2 =>
        if p2.2 < p.2 then (1 : ℚ) else if p.2 = p2.2 then 1 / 2 else 0)).sum)).sum /
    (((pairs.countP (fun p => decide (p.1 = 1))) : ℚ) *
      ((pairs.countP (fun p => decide (p.1 ≠ 1))) : ℚ))

/-- The classification metrics record. -/
structure ClsReport where
  n_oos : Nat
  accuracy : ℚ
  precision_pos : ℚ
  recall_pos : ℚ
  roc_auc : Option ℚ

/-- `classification_report_oos(y_true, oof_pred, oof_proba)`: count of
scored rows, accuracy, precision/recall for the positive class with
`zero_division=0`, and ROC-AUC guarded by `len(np.unique(y)) > 1`. -/
def classification_report_oos (y_true : List ℚ) (oof_pred oof_proba : List (Option ℚ)) :
    ClsReport :=
  { n_oos := (scoredRows y_true oof_pred oof_proba).length
    accuracy :=
      ((scoredRows y_true oof_pred oof_proba).countP
          (fun r => decide (r.1 = (intTrunc r.2.1 : ℚ))) : ℚ) /
        ((scoredRows y_true oof_pred oof_proba).length : ℚ)
    precision_pos :=
      if tpCount (scoredRows y_true oof_pred oof_proba) +
          fpCount (scoredRows y_true oof_pred oof_proba) = 0 then 0
      else (tpCount (scoredRows y_true oof_pred oof_proba) : ℚ) /
        ((tpCount (scoredRows y_true oof_pred oof_proba) : ℚ) +
          (fpCount (scoredRows y_true oof_pred oof_proba) : ℚ))
    recall_pos :=
      if tpCount (scoredRows y_true oof_pred oof_proba) +
          fnCount (scoredRows y_true oof_pred oof_proba) = 0 then 0
      else (tpCount (scoredRows y_true oof_pred oof_proba) : ℚ) /
        ((tpCount (scoredRows y_true oof_pred oof_proba) : ℚ) +
          (fnCount (scoredRows y_true oof_pred oof_proba) : ℚ))
    roc_auc :=
      if hasTwoClasses ((scoredRows y_true oof_pred oof_proba).map (fun r => r.1))
      then some (rocAucScore ((scoredRows y_true oof_pred oof_proba).filterMap
        (fun r => r.2.2.map (fun q => (r.1, q)))))
      else none }

/-- The PnL-sketch record. -/
structure PnlSketch where
  strat_cum_return : ℚ
  hit_rate_when_long : Option ℚ
  spearman_ic_signal_vs_fwd : Option ℚ

/-- The rows of `simple_signal_pnl`: the realized forward return paired
with the int-cast signal, at positions where the OOS prediction is
present (`mask = ~ser_pred.isna()`). -/
def pnlRows (fwd : List ℚ) (oof_pred : List (Option ℚ)) : List (ℚ × ℤ) :=
  (fwd.zip oof_pred).filterMap (fun r => r.2.map (fun p => (r.1, intTrunc p)))

/-- The long rows: `signal == 1`. -/
def pnlLongs (fwd : List ℚ) (oof_pred : List (Option ℚ)) : List (ℚ × ℤ) :=
  (pnlRows fwd oof_pred).filter (fun r => decide (r.2 = 1))

/-- Average rank (ties share the mean rank) of `x` within `l`. -/
def rankIn (l : List ℚ) (x : ℚ) : ℚ :=
  (l.countP (fun a => decide (a < x)) : ℚ) +
    ((l.countP (fun a => decide (a = x)) : ℚ) + 1) / 2

/-- Arithmetic mean of a list (0 on the empty list). -/
def meanOf (l : List ℚ) : ℚ := l.sum / (l.length : ℚ)

/-- Every entry equals the first one (zero variance). -/
def allEqual (l : List ℚ) : Bool :=
  match l with
  | [] => true
  | a :: t => t.all (fun b => decide (b = a))

/-- Modelled library call (scipy.stats.spearmanr): the undefined/NaN
condition — fewer than two samples, or a zero-variance input (all values
equal, hence all ranks equal) — is modelled exactly; in the defined case
the library's value is the Pearson correlation of the two rank vectors,
whose denominator is an irrational square root, so the model carries the
rank covariance instead: no claim inspects the finite value, and it is
zero, positive or negative exactly when the correlation is. -/
def spearmanIC (xs ys : List ℚ) : Option ℚ :=
  if xs.length < 2 then none
  else if allEqual xs || allEqual ys then none
  else some ((((xs.map (rankIn xs)).zip (ys.map (rankIn ys))).map
    (fun p => (p.1 - meanOf (xs.map (rankIn xs))) *
      (p.2 - meanOf (ys.map (rankIn ys))))).sum)

/-- `simple_signal_pnl(meta, oof_pred)` on `meta`'s forward 5-day return
column and the OOS prediction vector: compounded strategy return, hit
rate guarded by `(signal == 1).any()`, and the rank-correlation IC
guarded by the `ic == ic` NaN check. -/
def simple_signal_pnl (fwd : List ℚ) (oof_pred : List (Option ℚ)) : PnlSketch :=
  { strat_cum_return :=
      (((pnlRows fwd oof_pred).map (fun r => r.1 * (r.2 : ℚ))).map
        (fun s => 1 + s)).prod - 1
    hit_rate_when_long :=
      if (pnlLongs fwd oof_pred).length = 0 then none
      else some (((pnlLongs fwd oof_pred).countP (fun r => decide (0 < r.1)) : ℚ) /
        ((pnlLongs fwd oof_pred).length : ℚ))
    spearman_ic_signal_vs_fwd :=
      spearmanIC ((pnlRows fwd oof_pred).map (fun r => r.1))
        ((pnlRows fwd oof_pred).map (fun r => (r.2 : ℚ))) }

theorem intTrunc_zero : intTrunc 0 = 0 := rfl

theorem intTrunc_one : intTrunc 1 = 1 := rfl

/-! ### Claim theorems about the metrics aggregator -/

/-- C4: with at least one scored row, the Metrics Aggregator reports
sentinels instead of raising on degenerate inputs: precision and recall
are 0 when the positive class is never predicted; ROC-AUC is the NaN
sentinel when only one class occurs among the scored true labels; hit
rate is the NaN sentinel when no long position is taken; the
rank-correlation IC is the NaN sentinel on a zero-variance signal. -/
theorem claim_C4 (y_true fwd : List ℚ) (oof_pred oof_proba : List (Option ℚ))
    (hscored : (scoredRows y_true oof_pred oof_proba).length ≠ 0) :
    ((∀ r ∈ scoredRows y_true oof_pred oof_proba, intTrunc r.2.1 ≠ 1) →
      (classification_report_oos y_true oof_pred oof_proba).precision_pos = 0 ∧
        (classification_report_oos y_true oof_pred oof_proba).recall_pos = 0) ∧
    ((∀ r ∈ scoredRows y_true oof_pred oof_proba,
        ∀ s ∈ scoredRows y_true oof_pred oof_proba, r.1 = s.1) →
      (classification_report_oos y_true oof_pred oof_proba).roc_auc = none) ∧
    ((∀ r ∈ pnlRows fwd oof_pred, r.2 ≠ 1) →
      (simple_signal_pnl fwd oof_pred).hit_rate_when_long = none) ∧
    (allEqual ((pnlRows fwd oof_pred).map (fun r => (r.2 : ℚ))) = true →
      (simple_signal_pnl fwd oof_pred).spearman_ic_signal_vs_fwd = none) := by
  refine ⟨?_, ?_, ?_, ?_⟩
  · intro hnopos
    have htp : tpCount (scoredRows y_true oof_pred oof_proba) = 0 := by
      unfold tpCount
      rw [List.countP_eq_zero]
      intro r hr
      simp only [decide_eq_true_eq, not_and]
      intro h1
      exact absurd h1 (hnopos r hr)
    have hfp : fpCount (scoredRows y_true oof_pred oof_proba) = 0 := by
      unfold fpCount
      rw [List.countP_eq_zero]
      intro r hr
      simp only [decide_eq_true_eq, not_and]
      intro h1
      exact absurd h1 (hnopos r hr)
    constructor
    · unfold classification_report_oos
      dsimp only
      rw [htp, hfp, if_pos rfl]
    · unfold classification_report_oos
      dsimp only
      rw [htp]
      by_cases hfn : fnCount (scoredRows y_true oof_pred oof_proba) = 0
      · rw [hfn, if_pos rfl]
      · rw [if_neg (by omega)]
        simp
  · intro hall
    have hcls : hasTwoClasses
        ((scoredRows y_true oof_pred oof_proba).map (fun r => r.1)) = false := by
      unfold hasTwoClasses
      rw [List.any_eq_false]
      intro a ha
      simp only [Bool.not_eq_true]
      rw [List.any_eq_false]
      intro b hb
      obtain ⟨r, hr, rfl⟩ := List.mem_map.mp ha
      obtain ⟨s, hs, rfl⟩ := List.mem_map.mp hb
      simp only [decide_eq_true_eq, not_not]
      exact hall r hr s hs
    unfold classification_report_oos
    dsimp only
    rw [hcls]
    rfl
  · intro hnolong
    have hnil : pnlLongs fwd oof_pred = [] := by
      unfold pnlLongs
      rw [List.filter_eq_nil_iff]
      intro r hr
      simp only [decide_eq_true_eq]
      exact hnolong r hr
    unfold simple_signal_pnl
    dsimp only
    rw [hnil]
    rfl
  · intro heq
    unfold simple_signal_pnl
    dsimp only
    unfold spearmanIC
    by_cases hlen : ((pnlRows fwd oof_pred).map (fun r => r.1)).length < 2
    · rw [if_pos hlen]
    · rw [if_neg hlen, heq, Bool.or_true, if_pos rfl]

/-- Witness for C4 on degenerate concrete inputs: the positive class is
never predicted, the labels [1, 1] hold one class, and no long is taken. -/
theorem claim_C4_witness :
    (classification_report_oos [0, 1] [some 0, some 0]
        [some (1/2), some (1/2)]).precision_pos = 0 ∧
      (classification_report_oos [0, 1] [some 0, some 0]
        [some (1/2), some (1/2)]).recall_pos = 0 ∧
      (classification_report_oos [1, 1] [some 0, some 0]
        [some (1/2), some (1/2)]).roc_auc = none ∧
      (simple_signal_pnl [1, -1] [some 0, some 0]).hit_rate_when_long = none ∧
      (simple_signal_pnl [1, -1] [some 0, some 0]).spearman_ic_signal_vs_fwd = none := by
  have h1 := claim_C4 [0, 1] [1, -1] [some 0, some 0] [some (1/2), some (1/2)] (by decide)
  have h2 := claim_C4 [1, 1] [1, -1] [some 0, some 0] [some (1/2), some (1/2)] (by decide)
  have ha := h1.1 (by decide)
  exact ⟨ha.1, ha.2, h2.2.1 (by decide), h1.2.2.1 (by decide), h1.2.2.2 (by decide)⟩

/-- C5: for binary OOS predicted classes, the cumulative strategy return
equals the product over all scored rows of (1 + payoff) minus 1 with
payoff equal to the forward 5-day return when the predicted class is 1
and 0 otherwise, and (when at least one long is taken) the hit rate is
the fraction of predicted-1 rows whose forward return is positive. -/
theorem claim_C5 (fwd : List ℚ) (oof_pred : List (Option ℚ))
    (hbin : ∀ p ∈ oof_pred, p = none ∨ p = some 0 ∨ p = some 1) :
    (simple_signal_pnl fwd oof_pred).strat_cum_return =
      ((pnlRows fwd oof_pred).map
        (fun r => 1 + (if r.2 = 1 then r.1 else 0))).prod - 1 ∧
    ((pnlLongs fwd oof_pred).length ≠ 0 →
      (simple_signal_pnl fwd oof_pred).hit_rate_when_long =
        some (((pnlLongs fwd oof_pred).countP (fun r => decide (0 < r.1)) : ℚ) /
          ((pnlLongs fwd oof_pred).length : ℚ))) := by
  have hrowbin : ∀ r ∈ pnlRows fwd oof_pred, r.2 = 0 ∨ r.2 = 1 := by
    intro r hr
    unfold pnlRows at hr
    obtain ⟨pair, hpair, hmap⟩ := List.mem_filterMap.mp hr
    obtain ⟨a, b⟩ := pair
    have hmem := (List.of_mem_zip hpair).2
    cases hp : b with
    | none =>
      rw [hp] at hmap
      exact absurd hmap (by simp)
    | some p =>
      rw [hp] at hmap
      simp only [Option.map_some', Option.some.injEq] at hmap
      rw [hp] at hmem
      rcases hbin (some p) hmem with h | h | h
      · exact absurd h (by simp)
      · have hp0 : p = 0 := by simpa using h
        left
        rw [← hmap]
        rw [hp0]
        exact intTrunc_zero
      · have hp1 : p = 1 := by simpa using h
        right
        rw [← hmap]
        rw [hp1]
        exact intTrunc_one
  constructor
  · unfold simple_signal_pnl
    dsimp only
    have hmap : ((pnlRows fwd oof_pred).map (fun r => r.1 * (r.2 : ℚ))).map
        (fun s => 1 + s) =
        (pnlRows fwd oof_pred).map (fun r => 1 + (if r.2 = 1 then r.1 else 0)) := by
      rw [List.map_map]
      apply List.map_congr_left
      intro r hr
      rcases hrowbin r hr with h0 | h1
      · simp [h0]
      · simp [h1]
    rw [hmap]
  · intro hne
    unfold simple_signal_pnl
    dsimp only
    rw [if_neg hne]

/-- Witness for C5: two scored rows, one long with positive payoff. -/
theorem claim_C5_witness :
    (simple_signal_pnl [1/2, -1/3] [some 1, some 0]).strat_cum_return =
      ((pnlRows [1/2, -1/3] [some 1, some 0]).map
        (fun r => 1 + (if r.2 = 1 then r.1 else 0))).prod - 1 ∧
    ((pnlLongs [1/2, -1/3] [some 1, some 0]).length ≠ 0 →
      (simple_signal_pnl [1/2, -1/3] [some 1, some 0]).hit_rate_when_long =
        some (((pnlLongs [1/2, -1/3] [some 1, some 0]).countP
            (fun r => decide (0 < r.1)) : ℚ) /
          ((pnlLongs [1/2, -1/3] [some 1, some 0]).length : ℚ))) :=
  claim_C5 [1/2, -1/3] [some 1, some 0] (by decide)

/-! ### Persisted metrics round trip (cli.py `main`, report.py `build_pdf_report`)

The run writes `json.dumps({"classification": cls, "pnl_sketch": pnl})`
to `reports/metrics.json` and the report reads it back with `json.loads`.
The persisted text is embedded at the level of its JSON structure:
Python's float repr round-trips every double exactly, `json.dumps`
renders a NaN value as the `NaN` token and `json.loads` parses that token
back, so a numeric leaf is an exact value or an explicit NaN; keys are
the fixed metric names. -/

/-- The group and metric names that appear in `metrics.json`. -/
inductive MKey
  | classification | pnl_sketch
  | n_oos | accuracy | precision_pos | recall_pos | roc_auc
  | strat_cum_return | hit_rate_when_long | spearman_ic_signal_vs_fwd
  deriving DecidableEq, Repr

/-- A JSON value of the metrics document: a numeric leaf (`none` is the
NaN token) or an object with keyed members. -/
inductive Jval
  | num (v : Option ℚ)
  | obj (kvs : List (MKey × Jval))

/-- `json.dumps({"classification": cls, "pnl_sketch": pnl})` at the
structural level: each group is a flat object of numeric leaves. -/
def metricsJson (cls pnl : List (MKey × Option ℚ)) : Jval :=
  Jval.obj
    [(MKey.classification, Jval.obj (cls.map (fun kv => (kv.1, Jval.num kv.2)))),
     (MKey.pnl_sketch, Jval.obj (pnl.map (fun kv => (kv.1, Jval.num kv.2))))]

/-- Object member lookup, as the parsed document exposes it
(`metrics["classification"]`, `metrics.get("pnl_sketch")`). -/
def jlookup (kvs : List (MKey × Jval)) (k : MKey) : Option Jval :=
  (kvs.find? (fun kv => decide (kv.1 = k))).map (fun kv => kv.2)

/-- Read a flat object back as a numeric mapping. -/
def numMapOf : List (MKey × Jval) → Option (List (MKey × Option ℚ))
  | [] => some []
  | (k, Jval.num v) :: t => (numMapOf t).map (fun l => (k, v) :: l)
  | (_, Jval.obj _) :: _ => none

/-- Parse the persisted metrics document back into its two flat numeric
mappings, as the report's `json.loads` plus key access does. -/
def parseMetrics : Jval → Option (List (MKey × Option ℚ) × List (MKey × Option ℚ))
  | Jval.num _ => none
  | Jval.obj kvs =>
    match jlookup kvs MKey.classification, jlookup kvs MKey.pnl_sketch with
    | some (Jval.obj c), some (Jval.obj p) =>
      match numMapOf c, numMapOf p with
      | some cm, some pm => some (cm, pm)
      | _, _ => none
    | _, _ => none

/-- The flat classification mapping the run writes. -/
def clsPairs (r : ClsReport) : List (MKey × Option ℚ) :=
  [(MKey.n_oos, some (r.n_oos : ℚ)), (MKey.accuracy, some r.accuracy),
   (MKey.precision_pos, some r.precision_pos), (MKey.recall_pos, some r.recall_pos),
   (MKey.roc_auc, r.roc_auc)]

/-- The flat pnl-sketch mapping the run writes. -/
def pnlPairs (p : PnlSketch) : List (MKey × Option ℚ) :=
  [(MKey.strat_cum_return, some p.strat_cum_return),
   (MKey.hit_rate_when_long, p.hit_rate_when_long),
   (MKey.spearman_ic_signal_vs_fwd, p.spearman_ic_signal_vs_fwd)]

theorem numMapOf_map (l : List (MKey × Option ℚ)) :
    numMapOf (l.map (fun kv => (kv.1, Jval.num kv.2))) = some l := by
  induction l with
  | nil => rfl
  | cons kv t ih =>
    obtain ⟨k, v⟩ := kv
    simp only [List.map_cons]
    unfold numMapOf
    rw [ih]
    rfl

/-- C6: parsing the persisted metrics document reproduces exactly the
numeric mappings that were written, both for arbitrary flat mappings with
possibly-NaN values and for the mappings a run's classification report
and pnl sketch produce — the write-then-read round trip is the identity. -/
theorem claim_C6 (cls pnl : List (MKey × Option ℚ)) (r : ClsReport) (p : PnlSketch) :
    parseMetrics (metricsJson cls pnl) = some (cls, pnl) ∧
    parseMetrics (metricsJson (clsPairs r) (pnlPairs p)) =
      some (clsPairs r, pnlPairs p) := by
  have key : ∀ c q : List (MKey × Option ℚ),
      parseMetrics (metricsJson c q) = some (c, q) := by
    intro c q
    have h1 : parseMetrics (metricsJson c q) =
        match numMapOf (c.map fun kv => (kv.1, Jval.num kv.2)),
              numMapOf (q.map fun kv => (kv.1, Jval.num kv.2)) with
        | some cm, some pm => some (cm, pm)
        | _, _ => none := rfl
    rw [h1, numMapOf_map, numMapOf_map]
  exact ⟨key cls pnl, key (clsPairs r) (pnlPairs p)⟩

end EqSignal
